import Mathlib

/-!
Verification of the fuzzy phrase-matching engine in `Fuzzy Search/main.py`.

The Python functions `get_ngrams`, `get_matches` and `fuzzy_search`, and the
highlighting loop of `main`, are shallowly embedded below.  Strings are Lean
`String`s; Python string primitives (`strip`, `split`, `isalnum`, `isdigit`,
`isspace`) are modelled character-wise over `String.data`.  Floating-point
similarity scores are modelled as rationals.  The in-place `list.sort` of
`restricted_words` (line 168 of the source) is modelled by returning the
sorted list alongside the match table, and the `IndexError` raised on an
empty restricted list is modelled with `Except`.
-/

namespace FuzzySearch

/-- Python `str.strip()`: remove leading and trailing whitespace. -/
def pyStrip (s : String) : String :=
  String.mk (((s.data.dropWhile Char.isWhitespace).reverse.dropWhile Char.isWhitespace).reverse)

/-- Python `str.isspace()`: nonempty and all whitespace. -/
def pyIsSpace (s : String) : Bool :=
  !s.data.isEmpty && s.data.all Char.isWhitespace

/-- Python `str.isalnum()` (ASCII model): nonempty and all alphanumeric. -/
def pyIsAlnum (s : String) : Bool :=
  !s.data.isEmpty && s.data.all Char.isAlphanum

/-- Python `str.isdigit()` (ASCII model): nonempty and all digits. -/
def pyIsDigit (s : String) : Bool :=
  !s.data.isEmpty && s.data.all Char.isDigit

/-- Auxiliary for Python `str.split()`: split on whitespace runs, dropping
empty chunks.  The accumulator holds the current chunk reversed. -/
def pySplitAux : List Char → List Char → List (List Char)
  | [], acc => if acc.isEmpty then [] else [acc.reverse]
  | c :: cs, acc =>
    if c.isWhitespace then
      (if acc.isEmpty then pySplitAux cs [] else acc.reverse :: pySplitAux cs [])
    else pySplitAux cs (c :: acc)

/-- Python `str.split()` with no separator argument. -/
def pySplit (s : String) : List String :=
  (pySplitAux s.data []).map String.mk

/-- Python `len(x.split())`: the number of whitespace-delimited words of `x`. -/
def wordCount (s : String) : Nat :=
  (pySplit s).length

/-- Python `input_string.replace('\n', ' ')` for the single-character
pattern used in `fuzzy_search` (line 162). -/
def replaceNl (s : String) : String :=
  String.mk (s.data.map (fun c => if c = '\n' then ' ' else c))

/-- Model of `re.sub('[^a-zA-Z0-9]', '', s)`: keep only ASCII alphanumerics
(`get_matches`, lines 99 and 115). -/
def alnumOnly (s : String) : String :=
  String.mk (s.data.filter Char.isAlphanum)

/-- Whether a character matches the pattern `[^\w\d\s\.]` of
`strip_pattern` (line 100): not a word character, digit, whitespace or dot. -/
def isStripPunct (c : Char) : Bool :=
  !(c.isAlphanum || c = '_' || c.isDigit || c.isWhitespace || c = '.')

/-- Lines 107-108 of `get_matches`: drop the final character of the
candidate when it matches `strip_pattern`.  The candidate is nonempty at
this point in the source; the default `' '` used for an empty candidate
never matches. -/
def trimTrailingPunct (input : String) : String :=
  if isStripPunct (input.data.getLastD ' ') then String.mk input.data.dropLast else input

/-- Fuelled indel distance: Levenshtein distance with substitution weight 2,
as used by `Levenshtein.ratio`.  The fuel is an upper bound on the summed
lengths; the `0`-fuel arm is unreachable for the canonical fuel. -/
def lev2F : Nat → List Char → List Char → Nat
  | _, [], t => t.length
  | _, s, [] => s.length
  | 0, s, t => s.length + t.length
  | f + 1, a :: s, b :: t =>
    if a = b then lev2F f s t
    else 1 + min (lev2F f s (b :: t)) (lev2F f (a :: s) t)

/-- Indel distance between two character lists. -/
def lev2 (s t : List Char) : Nat :=
  lev2F (s.length + t.length) s t

/-- Model of `Levenshtein.ratio(s1, s2)`: normalized indel similarity in `[0,1]`,
with `ratio('', '') = 1`. -/
def ratioQ (s1 s2 : String) : ℚ :=
  let L := s1.data.length + s2.data.length
  if L = 0 then 1 else mkRat ((L - lev2 s1.data s2.data : ℕ) : ℤ) L

/-- Model of `Levenshtein.ratio(s1, s2, score_cutoff=c)`: the ratio, or `0` when the
ratio is below the cutoff. -/
def ratio_sc (s1 s2 : String) (cutoff : ℚ) : ℚ :=
  let r := ratioQ s1 s2
  if r < cutoff then 0 else r

/-- One row of the match table: columns `matched_word`, `restricted_word`
and `similarity` of the dataframe built by `get_matches`. -/
structure Row where
  matched : String
  restricted : String
  sim : ℚ
deriving DecidableEq

/-- The body of the inner loop of `get_matches` (lines 110-120) for one
(candidate, phrase) pair: score the pair (reducing the candidate to its
alphanumerics for the `ticker` list) and keep it only when the score
strictly exceeds the threshold. -/
def pairRow (input1 res : String) (similarity : ℚ) (restricted_type : String) : Option Row :=
  let r := if restricted_type = "ticker"
    then ratio_sc (alnumOnly input1) res similarity
    else ratio_sc input1 res similarity
  if similarity < r then some ⟨pyStrip input1, res, r⟩ else none

/-- The body of the outer loop of `get_matches` (lines 102-120) for one
candidate n-gram: skip empty or all-whitespace candidates, trim one
trailing punctuation character, then score against every phrase. -/
def processInput (input : String) (restricted_list : List String) (similarity : ℚ)
    (restricted_type : String) : List Row :=
  if input.data.length = 0 || pyIsSpace input then []
  else
    let input1 := trimTrailingPunct input
    restricted_list.filterMap (fun res => pairRow input1 res similarity restricted_type)

/-- Source function `get_matches(content_list, restricted_list, similarity,
restricted_type)` (lines 86-126). -/
def get_matches (content_list restricted_list : List String) (similarity : ℚ)
    (restricted_type : String) : List Row :=
  (content_list.map (fun input => processInput input restricted_list similarity restricted_type)).flatten

/-- Source function `get_ngrams(list_str, ngrams_value)` (lines 61-83): the `i`-th window is
built by the inner `j` loop as `((... + ' ' + tok) ...).strip()`; the outer
loop runs while `i <= len(list_str) - ngrams_value`, which over the
integers gives `len + 1 - n` iterations truncated at zero. -/
def get_ngrams (list_str : List String) (ngrams_value : Nat) : List String :=
  (List.range (list_str.length + 1 - ngrams_value)).map
    (fun i => pyStrip (((list_str.drop i).take ngrams_value).foldl
      (fun acc t => acc ++ " " ++ t) ""))

/-- Descending order by similarity, the key of
`matches_df.sort_values(by=['similarity'], ascending=False)` (line 193). -/
def simGE (a b : Row) : Prop := b.sim ≤ a.sim

instance : DecidableRel simGE := fun a b => inferInstanceAs (Decidable (b.sim ≤ a.sim))

instance : IsTotal Row simGE := ⟨fun a b => le_total b.sim a.sim⟩

instance : IsTrans Row simGE := ⟨fun _ _ _ h1 h2 => le_trans h2 h1⟩

/-- Descending order by word count, the key of
`restricted_words.sort(key=lambda x: len(x.split()), reverse=True)`
(line 168). -/
def wcGE (a b : String) : Prop := wordCount b ≤ wordCount a

instance : DecidableRel wcGE := fun a b => inferInstanceAs (Decidable (wordCount b ≤ wordCount a))

/-- Model of `drop_duplicates(subset=[key], keep='first')` (lines 196-197): keep each
row whose key was not seen earlier. -/
def dedupByAux (key : Row → String) (seen : List String) : List Row → List Row
  | [] => []
  | r :: rs =>
    if key r ∈ seen then dedupByAux key seen rs
    else r :: dedupByAux key (key r :: seen) rs

/-- Deduplication by a key column, keeping the first occurrence. -/
def dedupBy (key : Row → String) (l : List Row) : List Row :=
  dedupByAux key [] l

/-- The `while max_word_len > 0` loop of `fuzzy_search` (lines 175-190):
for each word count from `n` down to `1`, take the restricted words of that
word count and, when there are any, match them against the n-grams of that
window length; successive windows' matches are concatenated in loop order. -/
def collectLoop (content_list sorted_words : List String) (similarity : ℚ)
    (restricted_type : String) : Nat → List Row
  | 0 => []
  | n + 1 =>
    let temp := sorted_words.filter (fun elem => wordCount elem = n + 1)
    (if temp.isEmpty then []
     else get_matches (get_ngrams content_list (n + 1)) temp similarity restricted_type)
      ++ collectLoop content_list sorted_words similarity restricted_type n

/-- Error message for the `IndexError` raised by `restricted_words[0]`
on an empty restricted list (line 169). -/
def indexErrorMsg : String := "IndexError: list index out of range"

/-- Source function `fuzzy_search(input_string, restricted_words, similarity,
restricted_type)` (lines 148-205).  The first component of the result is the final state of
the caller's `restricted_words` list, which line 168 sorts in place by
descending word count; the second component is the ranked, deduplicated
match table. -/
def fuzzy_search (input_string : String) (restricted_words : List String)
    (similarity : ℚ) (restricted_type : String) :
    Except String (List String × List Row) :=
  let content_list := pySplit (replaceNl input_string)
  let sorted_words := List.insertionSort wcGE restricted_words
  match sorted_words with
  | [] => Except.error indexErrorMsg
  | w0 :: rest =>
    let max_word_len := wordCount w0
    let matchRows := collectLoop content_list (w0 :: rest) similarity restricted_type max_word_len
    let matches_sorted := List.insertionSort simGE matchRows
    let d1 := dedupBy (fun r => r.matched) matches_sorted
    let d2 := dedupBy (fun r => r.restricted) d1
    Except.ok (w0 :: rest, d2)

/-- One element of the highlight pattern built on line 266:
`re.escape(word).replace('\\ ', '[\n| ]*')`.  Every character of the
matched word is a literal (escaping makes regex specials literal), except
that each space becomes the character class `[\n| ]` repeated zero or more
times. -/
inductive PatElem where
  | lit (c : Char)
  | gap
deriving DecidableEq

/-- Whether a character belongs to the class `[\n| ]`: newline, pipe or
space. -/
def isGapChar (c : Char) : Bool :=
  c = '\n' || c = '|' || c = ' '

/-- Length of the longest run of `[\n| ]` characters at the head of the
text. -/
def gapRun (ds : List Char) : Nat :=
  (ds.takeWhile isGapChar).length

/-- Greedy-with-backtracking matching of `[\n| ]*` followed by the rest of
the pattern: try consuming `k` gap characters for `k` from the run length
down to `0`, taking the first continuation that matches.  `m` is the
matcher for the rest of the pattern, returning the number of characters it
consumes. -/
def tryGapWith (m : List Char → Option Nat) (ds : List Char) : Nat → Option Nat
  | 0 => m ds
  | k + 1 =>
    match m (ds.drop (k + 1)) with
    | some n => some (n + (k + 1))
    | none => tryGapWith m ds k

/-- Matching the highlight pattern at the head of the text, returning the
number of characters consumed by the leftmost-greedy regex match. -/
def patMatch : List PatElem → List Char → Option Nat
  | [] => fun _ => some 0
  | PatElem.lit c :: ps => fun ds =>
    match ds with
    | [] => none
    | d :: ds1 => if d = c then (patMatch ps ds1).map (· + 1) else none
  | PatElem.gap :: ps => fun ds => tryGapWith (patMatch ps) ds (gapRun ds)

/-- The pattern `word_sub_re` of line 266, one element per character of the
matched word. -/
def word_sub_re (word : String) : List PatElem :=
  word.data.map (fun c => if c = ' ' then PatElem.gap else PatElem.lit c)

/-- The replacement text of line 267: the matched word wrapped in the
highlight `span` marker. -/
def wrapSpan (word : String) : List Char :=
  ("<span style=\"background-color: #FFFF00\">" ++ word ++ "</span>").data

/-- Fuelled scan of `re.subn(word_sub_re, wrap, doc)`: at each position try
the pattern; on a match of `k` characters emit the replacement and resume
after the match (an empty match consumes the next character unreplaced,
as `re.subn` does), otherwise keep the character and move on.  Returns the
rewritten text and the number of substitutions.  The fuel is an upper
bound on the text length; the `0`-fuel arm is unreachable for the
canonical fuel. -/
def subnGoF (pat : List PatElem) (repl : List Char) : Nat → List Char → List Char × Nat
  | _, [] =>
    match patMatch pat [] with
    | some _ => (repl, 1)
    | none => ([], 0)
  | 0, ds => (ds, 0)
  | f + 1, d :: ds =>
    match patMatch pat (d :: ds) with
    | some 0 =>
      let r := subnGoF pat repl f ds
      (repl ++ d :: r.1, r.2 + 1)
    | some (k + 1) =>
      let r := subnGoF pat repl f (ds.drop k)
      (repl ++ r.1, r.2 + 1)
    | none =>
      let r := subnGoF pat repl f ds
      (d :: r.1, r.2)

/-- Model of line 267, `re.subn(word_sub_re, span_wrap, updated_body_HTML)`,
replacing every non-overlapping occurrence of the pattern. -/
def subn (word doc : String) : String × Nat :=
  let r := subnGoF (word_sub_re word) (wrapSpan word) doc.data.length doc.data
  (String.mk r.1, r.2)

/-- Independent count of the non-overlapping leftmost regex matches of the
pattern in the text, scanning exactly as `re.subn` does. -/
def countOccsF (pat : List PatElem) : Nat → List Char → Nat
  | _, [] =>
    match patMatch pat [] with
    | some _ => 1
    | none => 0
  | 0, _ => 0
  | f + 1, d :: ds =>
    match patMatch pat (d :: ds) with
    | some 0 => countOccsF pat f ds + 1
    | some (k + 1) => countOccsF pat f (ds.drop k) + 1
    | none => countOccsF pat f ds

/-- Number of non-overlapping occurrences of the pattern in the text. -/
def countOccs (pat : List PatElem) (ds : List Char) : Nat :=
  countOccsF pat ds.length ds

/-- The skip condition of line 261: matches too short or too noisy to
highlight. -/
def skipCond (word : String) : Bool :=
  (word.data.length < 3 && (!pyIsAlnum word || pyIsDigit word)) || word.data.length == 1

/-- One row of the Highlighter's report table: the match columns plus
whether the document was rewritten for it (black row) or not (red row). -/
structure HRow where
  word : String
  restricted : String
  sim : ℚ
  highlighted : Bool
deriving DecidableEq

/-- One iteration of the highlighting loop of `main` (lines 249-274) for
one ranked match, acting on the working document and the report rows
accumulated so far. -/
def highlightStep (acc : String × List HRow) (row : Row) : String × List HRow :=
  let doc := acc.1
  let rows := acc.2
  if skipCond row.matched then
    (doc, rows ++ [⟨row.matched, row.restricted, row.sim, false⟩])
  else
    let r := subn row.matched doc
    (r.1, rows ++ [⟨row.matched, row.restricted, row.sim, r.2 != 0⟩])

/-- The highlighting loop of `main` over all ranked matches, in rank
order. -/
def highlight (doc : String) (ranked : List Row) : String × List HRow :=
  ranked.foldl highlightStep (doc, [])

/-- Space-joined concatenation of a token list, as the specification
describes an n-gram window (before trimming). -/
def spaceJoin : List String → String
  | [] => ""
  | [t] => t
  | t :: t2 :: ts => t ++ " " ++ spaceJoin (t2 :: ts)

/-- Helper for relating the inner join loop of `get_ngrams` to
`spaceJoin`: the loop produces a leading space before every token. -/
def gjoin : List String → String
  | [] => ""
  | t :: ts => " " ++ t ++ gjoin ts

lemma dedupByAux_sublist (key : Row → String) :
    ∀ (l : List Row) (seen : List String), List.Sublist (dedupByAux key seen l) l := by
  intro l
  induction l with
  | nil => intro seen; simp [dedupByAux]
  | cons a rs ih =>
    intro seen
    by_cases h : key a ∈ seen
    · simpa [dedupByAux, h] using (ih seen).cons a
    · simpa [dedupByAux, h] using (ih (key a :: seen)).cons₂ a

lemma mem_dedupByAux (key : Row → String) :
    ∀ (l : List Row) (seen : List String) (r : Row),
      r ∈ dedupByAux key seen l → key r ∉ seen := by
  intro l
  induction l with
  | nil => intro seen r hr; simp [dedupByAux] at hr
  | cons a rs ih =>
    intro seen r hr
    by_cases h : key a ∈ seen
    · exact ih seen r (by simpa [dedupByAux, h] using hr)
    · rw [dedupByAux, if_neg h, List.mem_cons] at hr
      rcases hr with hr | hr
      · subst hr; exact h
      · exact fun hc => ih (key a :: seen) r hr (List.mem_cons_of_mem _ hc)

lemma dedupByAux_pairwise (key : Row → String) :
    ∀ (l : List Row) (seen : List String),
      (dedupByAux key seen l).Pairwise (fun a b => key a ≠ key b) := by
  intro l
  induction l with
  | nil => intro seen; simp [dedupByAux]
  | cons a rs ih =>
    intro seen
    by_cases h : key a ∈ seen
    · simpa [dedupByAux, h] using ih seen
    · rw [dedupByAux, if_neg h]
      refine List.Pairwise.cons ?_ (ih (key a :: seen))
      intro b hb
      have := mem_dedupByAux key rs (key a :: seen) b hb
      exact fun hc => this (by simp [hc])

lemma dedupBy_sublist (key : Row → String) (l : List Row) :
    List.Sublist (dedupBy key l) l :=
  dedupByAux_sublist key l []

lemma dedupBy_pairwise (key : Row → String) (l : List Row) :
    (dedupBy key l).Pairwise (fun a b => key a ≠ key b) :=
  dedupByAux_pairwise key l []

/-- Claim C1: for every input, the table returned by fuzzy_search after the
two dedup passes contains no two rows with equal matched text and no two
rows with equal restricted text, and it is ordered by descending
similarity (each dedup pass keeps the first surviving occurrence of its
key in that order). -/
theorem fuzzy_search_rank_dedup_invariant (input_string : String)
    (restricted_words : List String) (similarity : ℚ) (restricted_type : String)
    (ws : List String) (table : List Row)
    (h : fuzzy_search input_string restricted_words similarity restricted_type
      = Except.ok (ws, table)) :
    table.Pairwise (fun a b => a.matched ≠ b.matched) ∧
    table.Pairwise (fun a b => a.restricted ≠ b.restricted) ∧
    List.Sorted simGE table := by
  rw [fuzzy_search] at h
  cases hs : List.insertionSort wcGE restricted_words with
  | nil => rw [hs] at h; exact absurd h (by simp)
  | cons w0 rest =>
    rw [hs] at h
    simp only [Except.ok.injEq, Prod.mk.injEq] at h
    obtain ⟨-, htable⟩ := h
    subst htable
    set M := List.insertionSort simGE
      (collectLoop (pySplit (replaceNl input_string)) (w0 :: rest) similarity restricted_type
        (wordCount w0)) with hM
    have hsorted : List.Sorted simGE M := List.sorted_insertionSort simGE _
    have hsub1 : List.Sublist (dedupBy (fun r => r.matched) M) M :=
      dedupBy_sublist _ M
    have hsub2 : List.Sublist
        (dedupBy (fun r => r.restricted) (dedupBy (fun r => r.matched) M))
        (dedupBy (fun r => r.matched) M) :=
      dedupBy_sublist _ _
    refine ⟨(dedupBy_pairwise _ M).sublist hsub2, dedupBy_pairwise _ _, ?_⟩
    exact (hsorted.sublist (hsub2.trans hsub1))

/-- Concrete instance of C1: a one-phrase run producing a one-row table. -/
theorem fuzzy_search_rank_dedup_invariant_app :
    ([⟨"Apple", "Apple", 1⟩] : List Row).Pairwise (fun a b => a.matched ≠ b.matched) ∧
    ([⟨"Apple", "Apple", 1⟩] : List Row).Pairwise (fun a b => a.restricted ≠ b.restricted) ∧
    List.Sorted simGE [⟨"Apple", "Apple", 1⟩] :=
  fuzzy_search_rank_dedup_invariant "Apple" ["Apple"] (mkRat 1 2) "issuer"
    ["Apple"] [⟨"Apple", "Apple", 1⟩] (by rfl)

lemma pairRow_some_sim (input1 res : String) (t : ℚ) (ty : String) (row : Row)
    (h : pairRow input1 res t ty = some row) : t < row.sim := by
  simp only [pairRow] at h
  by_cases hc : t <
      (if ty = "ticker" then ratio_sc (alnumOnly input1) res t else ratio_sc input1 res t)
  · rw [if_pos hc] at h
    cases h
    exact hc
  · rw [if_neg hc] at h
    cases h

lemma mem_processInput_sim (input : String) (rl : List String) (t : ℚ) (ty : String)
    (row : Row) (h : row ∈ processInput input rl t ty) : t < row.sim := by
  rw [processInput] at h
  split at h
  · cases h
  · obtain ⟨res, -, hres⟩ := List.mem_filterMap.mp h
    exact pairRow_some_sim _ _ _ _ _ hres

lemma mem_get_matches_sim (c rl : List String) (t : ℚ) (ty : String)
    (row : Row) (h : row ∈ get_matches c rl t ty) : t < row.sim := by
  rw [get_matches] at h
  obtain ⟨l, hl, hrow⟩ := List.mem_flatten.mp h
  obtain ⟨input, -, rfl⟩ := List.mem_map.mp hl
  exact mem_processInput_sim _ _ _ _ _ hrow

lemma mem_collectLoop_sim (c sw : List String) (t : ℚ) (ty : String) :
    ∀ (n : Nat) (row : Row), row ∈ collectLoop c sw t ty n → t < row.sim := by
  intro n
  induction n with
  | zero => intro row h; simp [collectLoop] at h
  | succ m ih =>
    intro row h
    rw [collectLoop, List.mem_append] at h
    rcases h with h | h
    · split at h
      · cases h
      · exact mem_get_matches_sim _ _ _ _ _ h
    · exact ih row h

/-- Claim C2: every row of the table produced by fuzzy_search has a
similarity strictly greater than the threshold it was run with, and a
(candidate, phrase) pair whose true ratio does not exceed the threshold
yields no match row. -/
theorem fuzzy_search_similarity_gt_threshold :
    (∀ (inp : String) (rw0 : List String) (t : ℚ) (ty : String)
      (ws : List String) (table : List Row),
      fuzzy_search inp rw0 t ty = Except.ok (ws, table) →
      ∀ row ∈ table, t < row.sim) ∧
    (∀ (input1 res : String) (t : ℚ) (ty : String), 0 ≤ t →
      ratioQ (if ty = "ticker" then alnumOnly input1 else input1) res ≤ t →
      pairRow input1 res t ty = none) := by
  constructor
  · intro inp rw0 t ty ws table h row hrow
    rw [fuzzy_search] at h
    cases hs : List.insertionSort wcGE rw0 with
    | nil => rw [hs] at h; exact absurd h (by simp)
    | cons w0 rest =>
      rw [hs] at h
      simp only [Except.ok.injEq, Prod.mk.injEq] at h
      obtain ⟨-, htable⟩ := h
      subst htable
      have h1 := (dedupBy_sublist (fun r => r.restricted) _).subset hrow
      have h2 := (dedupBy_sublist (fun r => r.matched) _).subset h1
      have h3 := (List.perm_insertionSort simGE _).subset h2
      exact mem_collectLoop_sim _ _ _ _ _ row h3
  · intro input1 res t ty ht hr
    by_cases hty : ty = "ticker" <;>
      rw [pairRow] <;> simp only [hty, if_pos, if_neg, ite_true, ite_false] <;>
      rw [ratio_sc]
    · simp only [hty, ite_true] at hr
      split
      · rw [if_neg (not_lt.mpr ht)]
      · rename_i hlt
        rw [if_neg (not_lt.mpr (le_antisymm hr (not_lt.mp hlt) ▸ le_refl t))]
    · simp only [hty, ite_false] at hr
      split
      · rw [if_neg (not_lt.mpr ht)]
      · rename_i hlt
        rw [if_neg (not_lt.mpr (le_antisymm hr (not_lt.mp hlt) ▸ le_refl t))]

/-- Concrete instance of C2: a perfect match strictly exceeds threshold
one half, and a pair with ratio zero produces no row at that threshold. -/
theorem fuzzy_search_similarity_gt_threshold_app :
    mkRat 1 2 < (1 : ℚ) ∧ pairRow "doc" "ab" (mkRat 1 2) "issuer" = none := by
  constructor
  · exact fuzzy_search_similarity_gt_threshold.1 "Apple" ["Apple"] (mkRat 1 2) "issuer"
      ["Apple"] [⟨"Apple", "Apple", 1⟩] (by rfl) ⟨"Apple", "Apple", 1⟩ (by decide)
  · exact fuzzy_search_similarity_gt_threshold.2 "doc" "ab" (mkRat 1 2) "issuer"
      (by decide) (by decide)

lemma pyStrip_congr (s1 s2 : String) (h : s1.data = s2.data) : pyStrip s1 = pyStrip s2 := by
  rw [pyStrip, pyStrip, h]

lemma pyStrip_cons_space (s1 s2 : String) (h : s1.data = ' ' :: s2.data) :
    pyStrip s1 = pyStrip s2 := by
  have hw : Char.isWhitespace ' ' = true := by decide
  rw [pyStrip, pyStrip, h, List.dropWhile_cons, hw]
  simp

lemma foldJoin_data (ts : List String) :
    ∀ a : String, (ts.foldl (fun acc t => acc ++ " " ++ t) a).data = a.data ++ (gjoin ts).data := by
  induction ts with
  | nil => intro a; simp [gjoin]
  | cons t ts ih =>
    intro a
    rw [List.foldl_cons, ih (a ++ " " ++ t)]
    simp [gjoin]

lemma gjoin_data_cons (t : String) (ts : List String) :
    (gjoin (t :: ts)).data = ' ' :: (spaceJoin (t :: ts)).data := by
  induction ts generalizing t with
  | nil => simp [gjoin, spaceJoin]
  | cons t2 ts ih =>
    rw [gjoin, spaceJoin]
    simp only [String.data_append]
    rw [ih t2]
    simp

lemma pyStrip_foldJoin (ts : List String) :
    pyStrip (ts.foldl (fun acc t => acc ++ " " ++ t) "") = pyStrip (spaceJoin ts) := by
  cases ts with
  | nil => rfl
  | cons t ts =>
    have h1 : (List.foldl (fun acc t => acc ++ " " ++ t) "" (t :: ts)).data
        = (gjoin (t :: ts)).data := by
      rw [foldJoin_data]; rfl
    have h2 := gjoin_data_cons t ts
    exact pyStrip_cons_space _ _ (h1.trans h2)

/-- Claim C7: for every token sequence and window length at least one,
get_ngrams returns exactly max(0, len - window + 1) windows, the i-th
window is the trimmed space-joined concatenation of tokens i through
i+window-1, and a token list shorter than the window yields no windows. -/
theorem get_ngrams_window_spec (list_str : List String) (n : Nat) (h : 1 ≤ n) :
    ((get_ngrams list_str n).length : ℤ) = max 0 ((list_str.length : ℤ) - (n : ℤ) + 1) ∧
    (∀ (i : Nat) (hi : i < (get_ngrams list_str n).length),
      (get_ngrams list_str n).get ⟨i, hi⟩ = pyStrip (spaceJoin ((list_str.drop i).take n))) ∧
    (list_str.length < n → get_ngrams list_str n = []) := by
  have hlen : (get_ngrams list_str n).length = list_str.length + 1 - n := by
    simp [get_ngrams]
  refine ⟨?_, ?_, ?_⟩
  · rw [hlen]; omega
  · intro i hi
    simp only [get_ngrams, List.get_eq_getElem, List.getElem_map, List.getElem_range]
    exact pyStrip_foldJoin _
  · intro hlt
    have h0 : list_str.length + 1 - n = 0 := by omega
    simp [get_ngrams, h0]

/-- Concrete instance of C7: windows of length two over three tokens. -/
theorem get_ngrams_window_spec_app :
    ((get_ngrams ["aa", "b", "c"] 2).length : ℤ)
      = max 0 ((["aa", "b", "c"].length : ℤ) - (2 : ℤ) + 1) ∧
    (∀ (i : Nat) (hi : i < (get_ngrams ["aa", "b", "c"] 2).length),
      (get_ngrams ["aa", "b", "c"] 2).get ⟨i, hi⟩
        = pyStrip (spaceJoin ((["aa", "b", "c"].drop i).take 2))) ∧
    (["aa", "b", "c"].length < 2 → get_ngrams ["aa", "b", "c"] 2 = []) :=
  get_ngrams_window_spec ["aa", "b", "c"] 2 (by decide)

/-- Claim C10: every accepted match stores as matched text the candidate
n-gram after at most one trailing-punctuation character is removed and
surrounding whitespace is stripped; the trim is applied for both list
types, and the similarity is computed from the alphanumeric-reduced
candidate only for ticker-type lists while the stored text stays the
unreduced candidate. -/
theorem get_matches_stored_text_spec (content restricted : List String) (t : ℚ)
    (ty : String) :
    ∀ row ∈ get_matches content restricted t ty,
      ∃ input, input ∈ content ∧
        row.matched = pyStrip (trimTrailingPunct input) ∧
        row.restricted ∈ restricted ∧
        row.sim = (if ty = "ticker"
          then ratio_sc (alnumOnly (trimTrailingPunct input)) row.restricted t
          else ratio_sc (trimTrailingPunct input) row.restricted t) := by
  intro row hrow
  rw [get_matches] at hrow
  obtain ⟨l, hl, hmem⟩ := List.mem_flatten.mp hrow
  obtain ⟨input, hin, rfl⟩ := List.mem_map.mp hl
  refine ⟨input, hin, ?_⟩
  rw [processInput] at hmem
  split at hmem
  · cases hmem
  · obtain ⟨res, hres, hpair⟩ := List.mem_filterMap.mp hmem
    simp only [pairRow] at hpair
    by_cases hc : t <
        (if ty = "ticker" then ratio_sc (alnumOnly (trimTrailingPunct input)) res t
          else ratio_sc (trimTrailingPunct input) res t)
    · rw [if_pos hc] at hpair
      cases hpair
      exact ⟨rfl, hres, rfl⟩
    · rw [if_neg hc] at hpair
      cases hpair

/-- Concrete instance of C10: a ticker match whose stored text "A-B" is
the trimmed candidate, not the alphanumeric reduction "AB" that was
scored. -/
theorem get_matches_stored_text_spec_app :
    ∃ input, input ∈ ["A-B"] ∧
      (⟨"A-B", "AB", 1⟩ : Row).matched = pyStrip (trimTrailingPunct input) ∧
      (⟨"A-B", "AB", 1⟩ : Row).restricted ∈ ["AB"] ∧
      (⟨"A-B", "AB", 1⟩ : Row).sim = (if "ticker" = "ticker"
        then ratio_sc (alnumOnly (trimTrailingPunct input))
          (⟨"A-B", "AB", 1⟩ : Row).restricted (mkRat 1 2)
        else ratio_sc (trimTrailingPunct input)
          (⟨"A-B", "AB", 1⟩ : Row).restricted (mkRat 1 2)) :=
  get_matches_stored_text_spec ["A-B"] ["AB"] (mkRat 1 2) "ticker"
    ⟨"A-B", "AB", 1⟩ (by decide)

/-- Counterexample to C5 as stated: with threshold 2, which is outside
(0,1), the matching pass completes normally with an ordinary empty table
instead of failing fast. -/
theorem fuzzy_search_threshold_not_validated_cex :
    ¬((0 : ℚ) < 2 ∧ (2 : ℚ) < 1) ∧
    fuzzy_search "doc" ["ab"] 2 "issuer" = Except.ok (["ab"], []) := by
  constructor
  · intro hc
    exact absurd hc.2 (by decide)
  · rfl

/-- Claim C5, amended: the matching pass fails fast (with the IndexError
of `restricted_words[0]`) exactly when the restricted list is empty; an
out-of-range similarity threshold is not validated and does not make the
pass fail. -/
theorem fuzzy_search_error_iff_empty_list (inp : String) (rw0 : List String)
    (t : ℚ) (ty : String) :
    fuzzy_search inp rw0 t ty = Except.error indexErrorMsg ↔ rw0 = [] := by
  constructor
  · intro h
    cases hs : List.insertionSort wcGE rw0 with
    | nil =>
      have hp := List.perm_insertionSort wcGE rw0
      rw [hs] at hp
      exact hp.symm.eq_nil
    | cons w0 rest =>
      rw [fuzzy_search, hs] at h
      exact absurd h (by simp)
  · intro h
    subst h
    rfl

/-- Counterexample to C9 as stated: fuzzy_search leaves the caller's
restricted list reordered (sorted by descending word count), not in its
original order. -/
theorem fuzzy_search_mutates_order_cex :
    fuzzy_search "x" ["a", "b c"] (mkRat 1 2) "issuer" = Except.ok (["b c", "a"], []) ∧
    (["b c", "a"] : List String) ≠ ["a", "b c"] := by
  exact ⟨by rfl, by decide⟩

/-- Claim C9, amended: fuzzy_search sorts the caller's restricted list in
place by descending word count, so the order may change, but the final
state of the list is a permutation of the input: exactly the same
elements with the same multiplicities. -/
theorem fuzzy_search_preserves_multiset (inp : String) (rw0 : List String)
    (t : ℚ) (ty : String) (out : List String × List Row)
    (h : fuzzy_search inp rw0 t ty = Except.ok out) :
    List.Perm out.1 rw0 := by
  rw [fuzzy_search] at h
  cases hs : List.insertionSort wcGE rw0 with
  | nil => rw [hs] at h; exact absurd h (by simp)
  | cons w0 rest =>
    rw [hs] at h
    simp only [Except.ok.injEq] at h
    subst h
    rw [← hs]
    exact List.perm_insertionSort wcGE rw0

/-- Concrete instance of amended C9: the reordered list is a permutation
of the caller's list. -/
theorem fuzzy_search_preserves_multiset_app :
    List.Perm (["b c", "a"] : List String) ["a", "b c"] :=
  fuzzy_search_preserves_multiset "x" ["a", "b c"] (mkRat 1 2) "issuer"
    (["b c", "a"], []) (by rfl)

lemma highlightStep_invariant (acc : String × List HRow) (m : Row)
    (hacc : ∀ hr ∈ acc.2, skipCond hr.word = true → hr.highlighted = false) :
    ∀ hr ∈ (highlightStep acc m).2, skipCond hr.word = true → hr.highlighted = false := by
  intro hr hmem hskip
  rw [highlightStep] at hmem
  by_cases hc : skipCond m.matched
  · rw [if_pos hc] at hmem
    rcases List.mem_append.mp hmem with hmem | hmem
    · exact hacc hr hmem hskip
    · rw [List.mem_singleton] at hmem
      subst hmem
      rfl
  · rw [if_neg hc] at hmem
    rcases List.mem_append.mp hmem with hmem | hmem
    · exact hacc hr hmem hskip
    · rw [List.mem_singleton] at hmem
      subst hmem
      exact absurd hskip (by simpa using hc)

lemma highlightFold_skip (ms : List Row) :
    ∀ acc : String × List HRow,
      (∀ hr ∈ acc.2, skipCond hr.word = true → hr.highlighted = false) →
      ∀ hr ∈ (List.foldl highlightStep acc ms).2,
        skipCond hr.word = true → hr.highlighted = false := by
  induction ms with
  | nil => intro acc hacc; exact hacc
  | cons m ms ih =>
    intro acc hacc
    rw [List.foldl_cons]
    exact ih (highlightStep acc m) (highlightStep_invariant acc m hacc)

/-- Claim C8: a ranked match whose text is shorter than three characters
and not alphanumeric or purely numeric, or of length one, is reported
with highlighted set to false and causes no substitution: the step leaves
the working document unchanged, and every such row in a full highlight
run carries highlighted = false. -/
theorem highlight_skip_short_noisy :
    (∀ (doc : String) (rows : List HRow) (w rw0 : String) (s : ℚ),
      skipCond w = true →
      highlightStep (doc, rows) ⟨w, rw0, s⟩ = (doc, rows ++ [⟨w, rw0, s, false⟩])) ∧
    (∀ (doc : String) (ms : List Row) (hr : HRow),
      hr ∈ (highlight doc ms).2 → skipCond hr.word = true → hr.highlighted = false) := by
  constructor
  · intro doc rows w rw0 s hskip
    rw [highlightStep]
    rw [if_pos hskip]
  · intro doc ms hr hmem hskip
    exact highlightFold_skip ms (doc, []) (by intro hr2 h2; cases h2) hr hmem hskip

/-- Concrete instance of C8: the two-character non-alphanumeric text "@!"
is reported unhighlighted and the document is untouched. -/
theorem highlight_skip_short_noisy_app :
    skipCond "@!" = true ∧
    highlightStep ("The doc", []) ⟨"@!", "XY", 1⟩ = ("The doc", [⟨"@!", "XY", 1, false⟩]) :=
  ⟨by decide, highlight_skip_short_noisy.1 "The doc" [] "@!" "XY" 1 (by decide)⟩

lemma subnGoF_count_eq (pat : List PatElem) (repl : List Char) :
    ∀ (f : Nat) (ds : List Char), ds.length ≤ f →
      (subnGoF pat repl f ds).2 = countOccsF pat f ds ∧
      ((subnGoF pat repl f ds).2 = 0 → (subnGoF pat repl f ds).1 = ds) := by
  intro f
  induction f with
  | zero =>
    intro ds hds
    have : ds = [] := List.length_eq_zero.mp (Nat.le_zero.mp hds)
    subst this
    simp only [subnGoF, countOccsF]
    cases hpm : patMatch pat [] <;> simp
  | succ f ih =>
    intro ds hds
    cases ds with
    | nil =>
      simp only [subnGoF, countOccsF]
      cases hpm : patMatch pat [] <;> simp
    | cons d ds =>
      have hlen : ds.length ≤ f := by
        simp only [List.length_cons] at hds; omega
      cases hpm : patMatch pat (d :: ds) with
      | none =>
        obtain ⟨ihc, ihu⟩ := ih ds hlen
        simp only [subnGoF, countOccsF, hpm]
        exact ⟨ihc, fun h0 => by rw [ihu h0]⟩
      | some n =>
        cases n with
        | zero =>
          obtain ⟨ihc, -⟩ := ih ds hlen
          simp only [subnGoF, countOccsF, hpm]
          exact ⟨by rw [ihc], fun h0 => absurd h0 (Nat.succ_ne_zero _)⟩
        | succ k =>
          have hlen2 : (ds.drop k).length ≤ f := by
            simp only [List.length_drop]; omega
          obtain ⟨ihc, -⟩ := ih (ds.drop k) hlen2
          simp only [subnGoF, countOccsF, hpm]
          exact ⟨by rw [ihc], fun h0 => absurd h0 (Nat.succ_ne_zero _)⟩

/-- Counterexample to C3 as stated: the text "abc" passes the length and
noise filter, yet with the document "abc abc" the substitution step
rewrites two occurrences, not only the first. -/
theorem subn_single_substitution_cex :
    skipCond "abc" = false ∧ (subn "abc" "abc abc").2 = 2 := by
  exact ⟨by decide, by decide⟩

/-- Claim C3, amended: the substitution step of the Highlighter replaces
every non-overlapping occurrence of the matched-text pattern in the
working document (re.subn with no count limit), not only the first; the
number of substitutions equals the number of pattern occurrences, and
when there is no occurrence the document is unchanged. -/
theorem subn_replaces_all_occurrences (word doc : String) :
    (subn word doc).2 = countOccs (word_sub_re word) doc.data ∧
    ((subn word doc).2 = 0 → (subn word doc).1 = doc) := by
  obtain ⟨hc, hu⟩ := subnGoF_count_eq (word_sub_re word) (wrapSpan word)
    doc.data.length doc.data (le_refl _)
  refine ⟨hc, ?_⟩
  intro h0
  show String.mk (subnGoF (word_sub_re word) (wrapSpan word) doc.data.length doc.data).1 = doc
  rw [hu h0]

/-- Concrete instance of amended C3 at a pattern with no occurrence. -/
theorem subn_replaces_all_occurrences_app :
    (subn "zq" "The doc").2 = countOccs (word_sub_re "zq") ("The doc").data ∧
    ((subn "zq" "The doc").2 = 0 → (subn "zq" "The doc").1 = "The doc") :=
  subn_replaces_all_occurrences "zq" "The doc"

lemma tryGapWith_ne_none (m : List Char → Option Nat) (ds : List Char) :
    ∀ (K k : Nat), k ≤ K → m (ds.drop k) ≠ none → tryGapWith m ds K ≠ none := by
  intro K
  induction K with
  | zero =>
    intro k hk hm
    have : k = 0 := Nat.le_zero.mp hk
    subst this
    simpa [tryGapWith] using hm
  | succ K ih =>
    intro k hk hm
    rw [tryGapWith]
    cases hK : m (ds.drop (K + 1)) with
    | some n => simp
    | none =>
      by_cases hke : k = K + 1
      · subst hke
        exact absurd hK hm
      · exact ih k (by omega) hm

lemma patMatch_self_append :
    ∀ (l rest : List Char),
      patMatch (l.map (fun c => if c = ' ' then PatElem.gap else PatElem.lit c)) (l ++ rest)
        ≠ none := by
  intro l
  induction l with
  | nil => intro rest; simp [patMatch]
  | cons c cs ih =>
    intro rest
    by_cases hc : c = ' '
    · subst hc
      simp only [List.map_cons, if_pos rfl, List.cons_append]
      show tryGapWith
        (patMatch (cs.map (fun c => if c = ' ' then PatElem.gap else PatElem.lit c)))
        (' ' :: (cs ++ rest)) (gapRun (' ' :: (cs ++ rest))) ≠ none
      have hrun : 1 ≤ gapRun (' ' :: (cs ++ rest)) := by
        simp [gapRun, List.takeWhile_cons, isGapChar]
      refine tryGapWith_ne_none _ _ _ 1 hrun ?_
      simpa using ih rest
    · simp only [List.map_cons, if_neg hc, List.cons_append]
      show (if c = c then
          (patMatch (cs.map (fun c => if c = ' ' then PatElem.gap else PatElem.lit c))
            (cs ++ rest)).map (· + 1)
        else none) ≠ none
      simp only [if_pos rfl]
      cases hp : patMatch
          (cs.map (fun c => if c = ' ' then PatElem.gap else PatElem.lit c)) (cs ++ rest) with
      | none => exact absurd hp (ih rest)
      | some n => simp

lemma subnGoF_pos_of_matchable (pat : List PatElem) (repl : List Char) :
    ∀ (f : Nat) (ds : List Char), ds.length ≤ f →
      (∃ i, patMatch pat (ds.drop i) ≠ none) → 1 ≤ (subnGoF pat repl f ds).2 := by
  intro f
  induction f with
  | zero =>
    intro ds hds hex
    have : ds = [] := List.length_eq_zero.mp (Nat.le_zero.mp hds)
    subst this
    obtain ⟨i, hi⟩ := hex
    rw [List.drop_nil] at hi
    simp only [subnGoF]
    cases hpm : patMatch pat [] with
    | none => exact absurd hpm hi
    | some n => simp
  | succ f ih =>
    intro ds hds hex
    cases ds with
    | nil =>
      obtain ⟨i, hi⟩ := hex
      rw [List.drop_nil] at hi
      simp only [subnGoF]
      cases hpm : patMatch pat [] with
      | none => exact absurd hpm hi
      | some n => simp
    | cons d ds =>
      have hlen : ds.length ≤ f := by
        simp only [List.length_cons] at hds; omega
      cases hpm : patMatch pat (d :: ds) with
      | some n =>
        cases n with
        | zero => simp [subnGoF, hpm]
        | succ k => simp [subnGoF, hpm]
      | none =>
        obtain ⟨i, hi⟩ := hex
        cases i with
        | zero => exact absurd hpm (by simpa using hi)
        | succ j =>
          simp only [subnGoF, hpm]
          exact ih ds hlen ⟨j, by simpa using hi⟩

lemma subnGoF_decomp (pat : List PatElem) (repl : List Char) :
    ∀ (f : Nat) (ds : List Char), ds.length ≤ f → 1 ≤ (subnGoF pat repl f ds).2 →
      ∃ pre post, (subnGoF pat repl f ds).1 = pre ++ repl ++ post := by
  intro f
  induction f with
  | zero =>
    intro ds hds hpos
    have : ds = [] := List.length_eq_zero.mp (Nat.le_zero.mp hds)
    subst this
    cases hpm : patMatch pat [] with
    | none => simp [subnGoF, hpm] at hpos
    | some n => exact ⟨[], [], by simp [subnGoF, hpm]⟩
  | succ f ih =>
    intro ds hds hpos
    cases ds with
    | nil =>
      cases hpm : patMatch pat [] with
      | none => simp [subnGoF, hpm] at hpos
      | some n => exact ⟨[], [], by simp [subnGoF, hpm]⟩
    | cons d ds =>
      have hlen : ds.length ≤ f := by
        simp only [List.length_cons] at hds; omega
      cases hpm : patMatch pat (d :: ds) with
      | some n =>
        cases n with
        | zero =>
          exact ⟨[], d :: (subnGoF pat repl f ds).1, by simp [subnGoF, hpm]⟩
        | succ k =>
          exact ⟨[], (subnGoF pat repl f (ds.drop k)).1, by simp [subnGoF, hpm]⟩
      | none =>
        rw [subnGoF] at hpos ⊢
        simp only [hpm] at hpos ⊢
        obtain ⟨pre, post, hout⟩ := ih ds hlen hpos
        exact ⟨d :: pre, post, by simp [hout]⟩

/-- Counterexample to C4 as stated: highlighting "abc" in the document
"abc" and then running the substitution again on the output performs one
further substitution and changes the document, nesting the markers. -/
theorem highlight_not_idempotent_cex :
    1 ≤ (subn "abc" "abc").2 ∧
    (subn "abc" ((subn "abc" "abc").1)).2 = 1 ∧
    (subn "abc" ((subn "abc" "abc").1)).1 ≠ (subn "abc" "abc").1 := by
  exact ⟨by decide, by decide, by decide⟩

/-- Claim C4, amended: running the substitution step a second time on its
own output is not a no-op: whenever the first run performed at least one
substitution, the matched word reappears verbatim inside the inserted
marker, so the second run performs at least one further substitution,
re-wrapping already-wrapped text. -/
theorem subn_rewraps_on_second_run (word doc : String)
    (h : 1 ≤ (subn word doc).2) :
    1 ≤ (subn word (subn word doc).1).2 := by
  have h2 : 1 ≤ (subnGoF (word_sub_re word) (wrapSpan word) doc.data.length doc.data).2 := h
  obtain ⟨pre, post, hout⟩ := subnGoF_decomp (word_sub_re word) (wrapSpan word)
    doc.data.length doc.data (le_refl _) h2
  have hrepl : wrapSpan word
      = ("<span style=\"background-color: #FFFF00\">").data ++ word.data ++ ("</span>").data := by
    rw [wrapSpan]
    rw [String.data_append, String.data_append]
  show 1 ≤ (subnGoF (word_sub_re word) (wrapSpan word)
    (subnGoF (word_sub_re word) (wrapSpan word) doc.data.length doc.data).1.length
    (subnGoF (word_sub_re word) (wrapSpan word) doc.data.length doc.data).1).2
  apply subnGoF_pos_of_matchable _ _ _ _ (le_refl _)
  refine ⟨(pre ++ ("<span style=\"background-color: #FFFF00\">").data).length, ?_⟩
  have harr : (subnGoF (word_sub_re word) (wrapSpan word) doc.data.length doc.data).1
      = (pre ++ ("<span style=\"background-color: #FFFF00\">").data)
        ++ (word.data ++ (("</span>").data ++ post)) := by
    rw [hout, hrepl]
    simp [List.append_assoc]
  rw [harr, List.drop_left]
  exact patMatch_self_append word.data (("</span>").data ++ post)

/-- Concrete instance of amended C4: after wrapping "abc" once, the
second run still substitutes. -/
theorem subn_rewraps_on_second_run_app :
    1 ≤ (subn "abc" ((subn "abc" "abc").1)).2 :=
  subn_rewraps_on_second_run "abc" "abc" (by decide)

lemma ratio_sc_lt_iff (x res : String) (t : ℚ) (h0 : 0 ≤ t) :
    t < ratio_sc x res t ↔ t < ratioQ x res := by
  rw [ratio_sc]
  by_cases hlt : ratioQ x res < t
  · rw [if_pos hlt]
    constructor
    · intro hc; exact absurd (lt_of_le_of_lt h0 hc) (lt_irrefl 0)
    · intro hc; exact absurd (lt_trans hc hlt) (lt_irrefl t)
  · rw [if_neg hlt]

lemma ratio_sc_eq_of_not_lt (x res : String) (t : ℚ) (h : ¬ ratioQ x res < t) :
    ratio_sc x res t = ratioQ x res := by
  rw [ratio_sc, if_neg h]

lemma pairRow_char_gen (input1 res : String) (t : ℚ) (x : String) (h0 : 0 ≤ t) :
    (if t < ratio_sc x res t then some (⟨pyStrip input1, res, ratio_sc x res t⟩ : Row) else none)
      = (if t < ratioQ x res then some ⟨pyStrip input1, res, ratioQ x res⟩ else none) := by
  by_cases hacc : t < ratioQ x res
  · have hnlt : ¬ ratioQ x res < t := fun hc => absurd (lt_trans hacc hc) (lt_irrefl t)
    rw [if_pos ((ratio_sc_lt_iff x res t h0).mpr hacc), if_pos hacc,
      ratio_sc_eq_of_not_lt x res t hnlt]
  · rw [if_neg (fun hc => hacc ((ratio_sc_lt_iff x res t h0).mp hc)), if_neg hacc]

lemma pairRow_char (input1 res : String) (t : ℚ) (ty : String) (h0 : 0 ≤ t) :
    pairRow input1 res t ty =
      (if t < ratioQ (if ty = "ticker" then alnumOnly input1 else input1) res
       then some ⟨pyStrip input1, res,
         ratioQ (if ty = "ticker" then alnumOnly input1 else input1) res⟩
       else none) := by
  simp only [pairRow]
  by_cases hty : ty = "ticker"
  · simp only [hty, ite_true]
    exact pairRow_char_gen input1 res t (alnumOnly input1) h0
  · simp only [hty, ite_false]
    exact pairRow_char_gen input1 res t input1 h0

lemma pairRow_mono (input1 res : String) (ty : String) (t1 t2 : ℚ)
    (h0 : 0 ≤ t1) (h12 : t1 ≤ t2) :
    pairRow input1 res t2 ty =
      (match pairRow input1 res t1 ty with
       | some row => if t2 < row.sim then some row else none
       | none => none) := by
  have h02 : 0 ≤ t2 := le_trans h0 h12
  rw [pairRow_char _ _ _ _ h0, pairRow_char _ _ _ _ h02]
  by_cases ha1 : t1 < ratioQ (if ty = "ticker" then alnumOnly input1 else input1) res
  · rw [if_pos ha1]
  · have ha2 : ¬ t2 < ratioQ (if ty = "ticker" then alnumOnly input1 else input1) res :=
      fun hc => ha1 (lt_of_le_of_lt h12 hc)
    rw [if_neg ha1, if_neg ha2]

lemma filterMap_threshold (g1 g2 : String → Option Row) (t2 : ℚ)
    (hg : ∀ x, g2 x =
      (match g1 x with
       | some row => if t2 < row.sim then some row else none
       | none => none)) :
    ∀ l : List String,
      l.filterMap g2 = (l.filterMap g1).filter (fun row => decide (t2 < row.sim)) := by
  intro l
  induction l with
  | nil => simp
  | cons a l ih =>
    rw [List.filterMap_cons, List.filterMap_cons, hg a]
    cases hga : g1 a with
    | none => simpa using ih
    | some row =>
      by_cases hp : t2 < row.sim
      · simp [hp, ih]
      · simp [hp, ih]

lemma processInput_mono (input : String) (rl : List String) (ty : String)
    (t1 t2 : ℚ) (h0 : 0 ≤ t1) (h12 : t1 ≤ t2) :
    processInput input rl t2 ty
      = (processInput input rl t1 ty).filter (fun row => decide (t2 < row.sim)) := by
  rw [processInput, processInput]
  split
  · simp
  · exact filterMap_threshold _ _ t2
      (fun x => pairRow_mono (trimTrailingPunct input) x ty t1 t2 h0 h12) rl

lemma get_matches_mono (c rl : List String) (ty : String) (t1 t2 : ℚ)
    (h0 : 0 ≤ t1) (h12 : t1 ≤ t2) :
    get_matches c rl t2 ty
      = (get_matches c rl t1 ty).filter (fun row => decide (t2 < row.sim)) := by
  induction c with
  | nil => simp [get_matches]
  | cons i c ih =>
    simp only [get_matches, List.map_cons, List.flatten_cons] at ih ⊢
    rw [List.filter_append, ← ih, processInput_mono i rl ty t1 t2 h0 h12]

lemma collectLoop_mono (c sw : List String) (ty : String) (t1 t2 : ℚ)
    (h0 : 0 ≤ t1) (h12 : t1 ≤ t2) :
    ∀ n : Nat, collectLoop c sw t2 ty n
      = (collectLoop c sw t1 ty n).filter (fun row => decide (t2 < row.sim)) := by
  intro n
  induction n with
  | zero => simp [collectLoop]
  | succ m ih =>
    rw [collectLoop, collectLoop, List.filter_append, ← ih]
    congr 1
    split
    · simp
    · exact get_matches_mono _ _ ty t1 t2 h0 h12

lemma orderedInsert_of_forall_rel (x : Row) (t : List Row) (h : ∀ z ∈ t, simGE x z) :
    List.orderedInsert simGE x t = x :: t := by
  cases t with
  | nil => rfl
  | cons z zs =>
    simp only [List.orderedInsert]
    rw [if_pos (h z (List.mem_cons_self z zs))]

lemma orderedInsert_filter (p : Row → Bool) (x : Row) :
    ∀ s : List Row, List.Sorted simGE s →
      (List.orderedInsert simGE x s).filter p =
        (if p x = true then List.orderedInsert simGE x (s.filter p) else s.filter p) := by
  intro s
  induction s with
  | nil =>
    intro _
    cases hpx : p x <;> simp [List.orderedInsert, hpx]
  | cons y ys ih =>
    intro hs
    obtain ⟨hy, hys⟩ := List.sorted_cons.mp hs
    have ihy := ih hys
    by_cases hxy : simGE x y
    · simp only [List.orderedInsert, if_pos hxy]
      cases hpx : p x with
      | true =>
        cases hpy : p y with
        | true => simp [List.filter_cons, hpx, hpy, List.orderedInsert, hxy]
        | false =>
          simp only [List.filter_cons, hpx, hpy, ite_true, ite_false, Bool.false_eq_true]
          rw [orderedInsert_of_forall_rel]
          intro z hz
          have hzys : z ∈ ys := List.mem_of_mem_filter hz
          exact le_trans (hy z hzys) hxy
      | false =>
        cases hpy : p y <;> simp [List.filter_cons, hpx, hpy]
    · simp only [List.orderedInsert, if_neg hxy]
      cases hpx : p x with
      | true =>
        cases hpy : p y with
        | true =>
          simp only [List.filter_cons, hpx, hpy, ite_true, ihy]
          simp [List.orderedInsert, hxy]
        | false => simp [List.filter_cons, hpx, hpy, ihy]
      | false =>
        cases hpy : p y <;> simp [List.filter_cons, hpx, hpy, ihy]

lemma insertionSort_filter (p : Row → Bool) :
    ∀ l : List Row,
      (List.insertionSort simGE l).filter p = List.insertionSort simGE (l.filter p) := by
  intro l
  induction l with
  | nil => rfl
  | cons x l ih =>
    simp only [List.insertionSort, List.filter_cons]
    rw [orderedInsert_filter p x _ (List.sorted_insertionSort simGE l), ih]
    cases hpx : p x with
    | true => simp [List.insertionSort]
    | false => simp

lemma sorted_filter_eq_takeWhile (t2 : ℚ) :
    ∀ S : List Row, List.Sorted simGE S →
      S.filter (fun row => decide (t2 < row.sim))
        = S.takeWhile (fun row => decide (t2 < row.sim)) := by
  intro S
  induction S with
  | nil => intro _; rfl
  | cons x xs ih =>
    intro hs
    obtain ⟨hx, hxs⟩ := List.sorted_cons.mp hs
    by_cases hpx : t2 < x.sim
    · rw [List.filter_cons, List.takeWhile_cons]
      have hdx : decide (t2 < x.sim) = true := decide_eq_true hpx
      simp only [hdx, ite_true]
      rw [ih hxs]
    · have hnil : xs.filter (fun row => decide (t2 < row.sim)) = [] := by
        rw [List.filter_eq_nil_iff]
        intro z hz
        have hzle : z.sim ≤ x.sim := hx z hz
        simp only [decide_eq_true_eq]
        exact fun hc => hpx (lt_of_lt_of_le hc hzle)
      rw [List.filter_cons, List.takeWhile_cons]
      simp [hpx, hnil]

lemma dedupByAux_append (key : Row → String) :
    ∀ (l1 l2 : List Row) (seen : List String), ∃ seen2,
      dedupByAux key seen (l1 ++ l2)
        = dedupByAux key seen l1 ++ dedupByAux key seen2 l2 := by
  intro l1
  induction l1 with
  | nil => intro l2 seen; exact ⟨seen, rfl⟩
  | cons a l1 ih =>
    intro l2 seen
    by_cases h : key a ∈ seen
    · obtain ⟨s2, hs2⟩ := ih l2 seen
      refine ⟨s2, ?_⟩
      simp only [List.cons_append, dedupByAux, if_pos h, List.append_eq]
      exact hs2
    · obtain ⟨s2, hs2⟩ := ih l2 (key a :: seen)
      refine ⟨s2, ?_⟩
      simp only [List.cons_append, dedupByAux, if_neg h, List.append_eq]
      rw [hs2]

/-- Claim C6: for thresholds t1 <= t2 inside the unit interval, the
number of rows fuzzy_search produces from a list at threshold t2 never
exceeds the number produced at threshold t1. -/
theorem fuzzy_search_threshold_monotone (inp : String) (rw0 : List String) (ty : String)
    (t1 t2 : ℚ) (h1 : 0 < t1) (h12 : t1 ≤ t2) (h2 : t2 < 1)
    (ws1 ws2 : List String) (tab1 tab2 : List Row)
    (e1 : fuzzy_search inp rw0 t1 ty = Except.ok (ws1, tab1))
    (e2 : fuzzy_search inp rw0 t2 ty = Except.ok (ws2, tab2)) :
    tab2.length ≤ tab1.length := by
  rw [fuzzy_search] at e1 e2
  cases hs : List.insertionSort wcGE rw0 with
  | nil => rw [hs] at e1; exact absurd e1 (by simp)
  | cons w0 rest =>
    rw [hs] at e1 e2
    simp only [Except.ok.injEq, Prod.mk.injEq] at e1 e2
    obtain ⟨-, htab1⟩ := e1
    obtain ⟨-, htab2⟩ := e2
    subst htab1
    subst htab2
    rw [collectLoop_mono _ _ ty t1 t2 (le_of_lt h1) h12 _]
    rw [← insertionSort_filter]
    rw [sorted_filter_eq_takeWhile t2 _ (List.sorted_insertionSort simGE _)]
    have hTD := List.takeWhile_append_dropWhile
      (fun row => decide (t2 < row.sim))
      (List.insertionSort simGE
        (collectLoop (pySplit (replaceNl inp)) (w0 :: rest) t1 ty (wordCount w0)))
    obtain ⟨s2, hsplit1⟩ := dedupByAux_append (fun r => r.matched)
      (List.takeWhile (fun row => decide (t2 < row.sim))
        (List.insertionSort simGE
          (collectLoop (pySplit (replaceNl inp)) (w0 :: rest) t1 ty (wordCount w0))))
      (List.dropWhile (fun row => decide (t2 < row.sim))
        (List.insertionSort simGE
          (collectLoop (pySplit (replaceNl inp)) (w0 :: rest) t1 ty (wordCount w0))))
      []
    rw [hTD] at hsplit1
    simp only [dedupBy]
    rw [hsplit1]
    obtain ⟨s3, hsplit2⟩ := dedupByAux_append (fun r => r.restricted)
      (dedupByAux (fun r => r.matched) []
        (List.takeWhile (fun row => decide (t2 < row.sim))
          (List.insertionSort simGE
            (collectLoop (pySplit (replaceNl inp)) (w0 :: rest) t1 ty (wordCount w0)))))
      (dedupByAux (fun r => r.matched) s2
        (List.dropWhile (fun row => decide (t2 < row.sim))
          (List.insertionSort simGE
            (collectLoop (pySplit (replaceNl inp)) (w0 :: rest) t1 ty (wordCount w0)))))
      []
    rw [hsplit2, List.length_append]
    exact Nat.le_add_right _ _

/-- Concrete instance of C6: raising the threshold from one half to three
quarters drops the single 2/3-similarity match. -/
theorem fuzzy_search_threshold_monotone_app :
    ([] : List Row).length ≤ ([⟨"abc", "abd", mkRat 2 3⟩] : List Row).length :=
  fuzzy_search_threshold_monotone "abc" ["abd"] "issuer" (mkRat 1 2) (mkRat 3 4)
    (by decide) (by decide) (by decide) ["abd"] ["abd"]
    [⟨"abc", "abd", mkRat 2 3⟩] [] (by rfl) (by rfl)

end FuzzySearch
